import Mathlib

/-!
Verification development for the `fast_sweeping` crate (signed distance via
the fast sweeping method).  The Rust sources `src/lib.rs` and
`src/level_set.rs` are embedded shallowly over `ℝ`: every `f64` value is
modelled as a real number, slices are modelled as functions `ℕ → ℝ`
(together with explicit length checks where the code asserts them), and the
sentinel `std::f64::MAX` is the concrete real constant `FMAX` below.
-/

noncomputable section

namespace FastSweeping

/-- The sentinel `std::f64::MAX`, i.e. the largest finite `f64`,
`(2 - 2⁻⁵²)·2¹⁰²³ = 2¹⁰²⁴ - 2⁹⁷¹`, as an exact real constant. -/
def FMAX : ℝ := 2 ^ (1024 : ℕ) - 2 ^ (971 : ℕ)

lemma FMAX_pos : 0 < FMAX := by
  unfold FMAX
  have h : (2 : ℝ) ^ (971 : ℕ) < 2 ^ (1024 : ℕ) := by
    exact pow_lt_pow_right₀ (by norm_num) (by norm_num)
  linarith

lemma two_lt_FMAX : (2 : ℝ) < FMAX := by
  unfold FMAX
  have h : (2 : ℝ) ^ (971 : ℕ) + 2 < 2 ^ (1024 : ℕ) := by
    have h1 : (2 : ℝ) ^ (971 : ℕ) + 2 ≤ 2 ^ (971 : ℕ) + 2 ^ (971 : ℕ) := by
      have : (2 : ℝ) ≤ 2 ^ (971 : ℕ) := by
        calc (2 : ℝ) = 2 ^ (1 : ℕ) := by norm_num
        _ ≤ 2 ^ (971 : ℕ) := pow_le_pow_right₀ (by norm_num) (by norm_num)
      linarith
    have h2 : (2 : ℝ) ^ (971 : ℕ) + 2 ^ (971 : ℕ) = 2 ^ (972 : ℕ) := by ring
    have h3 : (2 : ℝ) ^ (972 : ℕ) < 2 ^ (1024 : ℕ) :=
      pow_lt_pow_right₀ (by norm_num) (by norm_num)
    linarith
  linarith

lemma sqrt_two_le_two : Real.sqrt 2 ≤ 2 := by
  have h := Real.sq_sqrt (by norm_num : (0:ℝ) ≤ 2)
  nlinarith [Real.sqrt_nonneg 2]

lemma sqrt_two_lt_FMAX : Real.sqrt 2 < FMAX :=
  lt_of_le_of_lt sqrt_two_le_two two_lt_FMAX

lemma one_le_sqrt_two : (1 : ℝ) ≤ Real.sqrt 2 := by
  have h : Real.sqrt 1 ≤ Real.sqrt 2 := Real.sqrt_le_sqrt (by norm_num)
  rw [Real.sqrt_one] at h
  exact h

/-! ### `triangle_dist` (src/level_set.rs, lines 92–163)

`triCase a b c` is the body of `triangle_dist` after the sign
normalisation, acting on the (possibly flipped) vertex values
`a = u[0], b = u[1], c = u[2]` with `a ≥ 0`; `triangle_dist` performs the
flip (`if u[0] < 0 { negate all }`) and calls it. -/

/-- Body of `triangle_dist` after normalising the sign of vertex 0:
gradient `gx = b - a`, `gy = c - a`, `g_norm = sqrt(gx²+gy²)`, then
the Rust routine's exhaustive case analysis (the zero-pattern `match`
and the three mixed-sign branches). -/
def triCase (a b c : ℝ) : Option (Fin 3 → ℝ) :=
  let gx := b - a
  let gy := c - a
  let g := Real.sqrt (gx * gx + gy * gy)
  if 0 ≤ b then
    if 0 ≤ c then
      -- the `match (u[0], u[1], u[2])` over exact zeros
      if a = 0 ∧ b = 0 ∧ c = 0 then some ![0, 0, 0]
      else if b = 0 ∧ c = 0 then some ![Real.sqrt 0.5, 0, 0]
      else if a = 0 ∧ c = 0 then some ![0, 1, 0]
      else if a = 0 ∧ b = 0 then some ![0, 0, 1]
      else if a = 0 then some ![0, 1, 1]
      else if b = 0 then some ![1, 0, Real.sqrt 2]
      else if c = 0 then some ![1, Real.sqrt 2, 0]
      else none
    else
      -- u[2] < 0: intersections i02 = a/(a-c), i12 = √2·b/(b-c)
      if gx ≤ 0 then some ![a / g, Real.sqrt 2 * b / (b - c), 1 - a / (a - c)]
      else if -gy < gx then
        some ![a / (a - c), b / g, Real.sqrt 2 - Real.sqrt 2 * b / (b - c)]
      else some ![a / (a - c), Real.sqrt 2 * b / (b - c), -c / g]
  else if 0 ≤ c then
    -- u[1] < 0: intersections i01 = a/(a-b), i12 = √2·b/(b-c)
    if gy ≤ 0 then
      some ![a / g, 1 - a / (a - b), Real.sqrt 2 - Real.sqrt 2 * b / (b - c)]
    else if gy < -gx then
      some ![a / (a - b), -b / g, Real.sqrt 2 - Real.sqrt 2 * b / (b - c)]
    else some ![a / (a - b), Real.sqrt 2 * b / (b - c), c / g]
  else
    -- u[1] < 0, u[2] < 0: i10 = b/(b-a), i20 = c/(c-a)
    some ![a / g, b / (b - a), c / (c - a)]

/-- `triangle_dist` (src/level_set.rs:92): distance values on the unit
right triangle, `none` when the zero level set misses the triangle. -/
def triangle_dist (u : Fin 3 → ℝ) : Option (Fin 3 → ℝ) :=
  if u 0 < 0 then triCase (-u 0) (-u 1) (-u 2) else triCase (u 0) (u 1) (u 2)

/-! ### `tetrahedron_dist` (src/level_set.rs, lines 11–34) -/

/-- The epsilon `tiny = 1e-15` added to non-negative vertex values in
`tetrahedron_dist`. -/
def tiny : ℝ := 1e-15

/-- The mutated vertex values of `tetrahedron_dist`: `tiny` is added to
every value that is `≥ 0`. -/
def tetV (u : Fin 4 → ℝ) : Fin 4 → ℝ := fun m => if 0 ≤ u m then u m + tiny else u m

/-- `n_pos`: how many of the four vertex values are `≥ 0`. -/
def n_pos (u : Fin 4 → ℝ) : ℕ :=
  (if 0 ≤ u 0 then 1 else 0) + (if 0 ≤ u 1 then 1 else 0)
    + (if 0 ≤ u 2 then 1 else 0) + (if 0 ≤ u 3 then 1 else 0)

/-- Squared gradient norm of `tetrahedron_dist`: the `windows(2)` fold of
squared differences of consecutive (mutated) vertex values. -/
def tetSqGrad (v : Fin 4 → ℝ) : ℝ :=
  (v 1 - v 0) ^ 2 + (v 2 - v 1) ^ 2 + (v 3 - v 2) ^ 2

/-- `tetrahedron_dist` (src/level_set.rs:11): unsigned distances on the
unit tetrahedron, `none` when all four signs agree (`n_pos ∈ {0, 4}`). -/
def tetrahedron_dist (u : Fin 4 → ℝ) : Option (Fin 4 → ℝ) :=
  if n_pos u = 0 ∨ n_pos u = 4 then none
  else
    let v := tetV u
    let g_norm_rcp := 1 / Real.sqrt (tetSqGrad v)
    some (fun m => |v m| * g_norm_rcp)

/-! ### `init_dist` (src/level_set.rs, lines 174–200)

The slice `d` is modelled as a function `ℕ → ℝ`.  The loop body only
reads `d` at the index it is about to overwrite with a `min`, and
`triangle_dist` reads only `u`; so the double loop is embedded as a fold
of single `min`-updates over the list of update events it generates, in
the loop order of the source. -/

/-- One Rust statement `d[q] = x.min(d[q])`. -/
def updateMin (d : ℕ → ℝ) (q : ℕ) (x : ℝ) : ℕ → ℝ :=
  Function.update d q (min x (d q))

/-- The initial overwrite `for d in &mut *d { *d = std::f64::MAX }` over a
slice of length `n`. -/
def sentinelFill (d : ℕ → ℝ) (n : ℕ) : ℕ → ℝ :=
  fun q => if q < n then FMAX else d q

/-- The cells `(j, i)` visited by `init_dist`'s double loop
`for j in 1..ny { for i in 1..nx { ... } }`, in loop order. -/
def cellList (nx ny : ℕ) : List (ℕ × ℕ) :=
  (List.range' 1 (ny - 1)).flatMap fun j =>
    (List.range' 1 (nx - 1)).map fun i => (j, i)

/-- Update events `(index, value)` of one `triangle_dist` call: three
`min`-updates at the triangle's vertices if it returned `Some`, none
otherwise. -/
def triEvents (q0 q1 q2 : ℕ) (r : Option (Fin 3 → ℝ)) : List (ℕ × ℝ) :=
  match r with
  | some e => [(q0, e 0), (q1, e 1), (q2, e 2)]
  | none => []

/-- Update events of one cell of `init_dist`: the two triangles
`[u[s-nx-1], u[s-nx], u[s-1]]` and `[u[s], u[s-nx], u[s-1]]`. -/
def cellEvents (u : ℕ → ℝ) (nx : ℕ) (ji : ℕ × ℕ) : List (ℕ × ℝ) :=
  let s := ji.1 * nx + ji.2
  triEvents (s - nx - 1) (s - nx) (s - 1)
      (triangle_dist ![u (s - nx - 1), u (s - nx), u (s - 1)])
    ++ triEvents s (s - nx) (s - 1)
      (triangle_dist ![u s, u (s - nx), u (s - 1)])

/-- All update events of `init_dist`'s double loop, in loop order. -/
def initEvents (u : ℕ → ℝ) (nx ny : ℕ) : List (ℕ × ℝ) :=
  (cellList nx ny).flatMap (cellEvents u nx)

/-- `init_dist` (src/level_set.rs:174): overwrite `d` with the sentinel,
then apply every `min`-update of the double loop. -/
def init_dist (d u : ℕ → ℝ) (dim : ℕ × ℕ) : ℕ → ℝ :=
  (initEvents u dim.1 dim.2).foldl (fun d ev => updateMin d ev.1 ev.2)
    (sentinelFill d (dim.1 * dim.2))

/-! ### `init_dist_3d` (src/level_set.rs, lines 45–84) -/

/-- The fixed decomposition of each cube into 6 tetrahedra (the `ids`
array of `init_dist_3d`). -/
def ids3 : List (Fin 4 → ℕ × ℕ × ℕ) :=
  [![(0, 0, 0), (1, 0, 0), (1, 1, 0), (1, 1, 1)],
   ![(0, 0, 0), (1, 0, 0), (1, 0, 1), (1, 1, 1)],
   ![(0, 0, 0), (0, 1, 0), (1, 1, 0), (1, 1, 1)],
   ![(0, 0, 0), (0, 1, 0), (0, 1, 1), (1, 1, 1)],
   ![(0, 0, 0), (0, 0, 1), (1, 0, 1), (1, 1, 1)],
   ![(0, 0, 0), (0, 0, 1), (0, 1, 1), (1, 1, 1)]]

/-- Linear offset `a*ny*nz + b*nz + c` of a corner offset `(a, b, c)`. -/
def tetOff (ny nz : ℕ) (t : ℕ × ℕ × ℕ) : ℕ :=
  t.1 * ny * nz + t.2.1 * nz + t.2.2

/-- Update events of one tetrahedron of `init_dist_3d`'s cell loop. -/
def tetEvents (u : ℕ → ℝ) (ny nz s : ℕ) (idx : Fin 4 → ℕ × ℕ × ℕ) :
    List (ℕ × ℝ) :=
  match tetrahedron_dist (fun m => u (s - tetOff ny nz (idx m))) with
  | some r =>
    [(s - tetOff ny nz (idx 0), r 0), (s - tetOff ny nz (idx 1), r 1),
     (s - tetOff ny nz (idx 2), r 2), (s - tetOff ny nz (idx 3), r 3)]
  | none => []

/-- The cells `(i, j, k)` visited by `init_dist_3d`'s triple loop, in
loop order. -/
def cellList3 (nx ny nz : ℕ) : List (ℕ × ℕ × ℕ) :=
  (List.range' 1 (nx - 1)).flatMap fun i =>
    (List.range' 1 (ny - 1)).flatMap fun j =>
      (List.range' 1 (nz - 1)).map fun k => (i, j, k)

/-- All update events of `init_dist_3d`'s triple loop, in loop order. -/
def initEvents3 (u : ℕ → ℝ) (nx ny nz : ℕ) : List (ℕ × ℝ) :=
  (cellList3 nx ny nz).flatMap fun ijk =>
    let s := ijk.1 * ny * nz + ijk.2.1 * nz + ijk.2.2
    ids3.flatMap (tetEvents u ny nz s)

/-- `init_dist_3d` (src/level_set.rs:45): overwrite `d` with the
sentinel, then apply every `min`-update of the triple loop. -/
def init_dist_3d (d u : ℕ → ℝ) (dim : ℕ × ℕ × ℕ) : ℕ → ℝ :=
  (initEvents3 u dim.1 dim.2.1 dim.2.2).foldl
    (fun d ev => updateMin d ev.1 ev.2)
    (sentinelFill d (dim.1 * dim.2.1 * dim.2.2))

/-! ### `fast_sweep_dist` (module `eikonal`)

Modelled from the spec: the file `src/eikonal.rs` of the crate (declared
by `mod eikonal;` in src/lib.rs) is not among the available sources, so
`fast_sweep_dist` is modelled from spec §4.2: Gauss–Seidel sweeps over
the four monotone orderings, each node being relaxed to the minimum of
its current value and the upwind Eikonal candidate (in grid units,
`h = 1`) built from the per-axis neighbor minima; the documented minimum
of a single pass over all `2^D` orderings is used. -/

/-- Per-axis neighbor minimum; `none` when both neighbors are out of
range (spec §4.2: out-of-range neighbors excluded). -/
def axisMin (left : Prop) [Decidable left] (ql : ℕ) (right : Prop)
    [Decidable right] (qr : ℕ) (d : ℕ → ℝ) : Option ℝ :=
  if left then
    if right then some (min (d ql) (d qr)) else some (d ql)
  else if right then some (d qr) else none

/-- The upwind Eikonal candidate from the per-axis minima (spec §4.2):
smallest minimum plus 1 if consistent, else the two-term quadratic
root `(a + b + sqrt(2 - (a-b)²))/2`. -/
def eikCandidate : Option ℝ → Option ℝ → Option ℝ
  | none, none => none
  | some a, none => some (a + 1)
  | none, some b => some (b + 1)
  | some a, some b =>
    let m1 := min a b
    let m2 := max a b
    if m1 + 1 ≤ m2 then some (m1 + 1)
    else some ((m1 + m2 + Real.sqrt (2 - (m2 - m1) ^ 2)) / 2)

/-- One Gauss–Seidel relaxation of the node `(i, j)` (spec §4.2): the
node's value becomes the minimum of its current value and the candidate. -/
def sweepStep (nx ny : ℕ) (d : ℕ → ℝ) (ij : ℕ × ℕ) : ℕ → ℝ :=
  let i := ij.1
  let j := ij.2
  let s := j * nx + i
  let a := axisMin (0 < i) (s - 1) (i + 1 < nx) (s + 1) d
  let b := axisMin (0 < j) (s - nx) (j + 1 < ny) (s + nx) d
  (eikCandidate a b).elim d fun c => Function.update d s (min (d s) c)

/-- The four monotone sweep orderings of spec §4.2, concatenated:
`{i inc, j inc}`, `{i inc, j dec}`, `{i dec, j inc}`, `{i dec, j dec}`. -/
def sweepList (nx ny : ℕ) : List (ℕ × ℕ) :=
  let ord (js : List ℕ) (xs : List ℕ) : List (ℕ × ℕ) :=
    js.flatMap fun j => xs.map fun i => (i, j)
  ord (List.range ny) (List.range nx)
    ++ ord (List.range ny).reverse (List.range nx)
    ++ ord (List.range ny) (List.range nx).reverse
    ++ ord (List.range ny).reverse (List.range nx).reverse

/-- Modelled from the spec: `fast_sweep_dist` of the missing
`src/eikonal.rs` — a single pass over all four sweep orderings,
relaxing in place. -/
def fast_sweep_dist (d : ℕ → ℝ) (dim : ℕ × ℕ) : ℕ → ℝ :=
  (sweepList dim.1 dim.2).foldl (sweepStep dim.1 dim.2) d

/-! ### `signed_distance` (src/lib.rs, lines 18–32) -/

/-- `signed_distance` (src/lib.rs:18): `init_dist`, then
`fast_sweep_dist`, then the sign-and-scale pass
`d[i] = if u[i] < 0 { -d[i] * h } else { d[i] * h }` over the slice. -/
def signed_distance (d u : ℕ → ℝ) (dim : ℕ × ℕ) (h : ℝ) : ℕ → ℝ :=
  let d2 := fast_sweep_dist (init_dist d u dim) dim
  fun q =>
    if q < dim.1 * dim.2 then
      if u q < 0 then -d2 q * h else d2 q * h
    else d2 q

/-! ### Length-checked entry points

The Rust entry points take slices and `assert_eq!` their lengths against
the declared dimensions before touching them; afterwards every slice
access must be in bounds or the program panics.  To reason about
panics we wrap each entry point over `List ℝ` buffers: `none` models a
panic (failed assertion, or an out-of-bounds index), `some` the
successful run. -/

/-- The slice indices accessed by `init_dist`'s double loop (corners of
each visited cell, for both `u` and `d`). -/
def initAccess (nx ny : ℕ) : List ℕ :=
  (cellList nx ny).flatMap fun ji =>
    let s := ji.1 * nx + ji.2
    [s - nx - 1, s - nx, s - 1, s]

/-- The slice indices accessed by `init_dist_3d`'s triple loop. -/
def initAccess3 (nx ny nz : ℕ) : List ℕ :=
  (cellList3 nx ny nz).flatMap fun ijk =>
    let s := ijk.1 * ny * nz + ijk.2.1 * nz + ijk.2.2
    ids3.flatMap fun idx =>
      [s - tetOff ny nz (idx 0), s - tetOff ny nz (idx 1),
       s - tetOff ny nz (idx 2), s - tetOff ny nz (idx 3)]

/-- The slice indices accessed by the modelled `fast_sweep_dist` (each
node and its in-range neighbors). -/
def sweepAccess (nx ny : ℕ) : List ℕ :=
  (sweepList nx ny).flatMap fun ij =>
    let s := ij.2 * nx + ij.1
    [s] ++ (if 0 < ij.1 then [s - 1] else [])
      ++ (if ij.1 + 1 < nx then [s + 1] else [])
      ++ (if 0 < ij.2 then [s - nx] else [])
      ++ (if ij.2 + 1 < ny then [s + nx] else [])

/-- View a list buffer as a total function (the value at any in-bounds
index agrees with the list). -/
def funOf (l : List ℝ) : ℕ → ℝ := fun i => l.getD i 0

/-- Read a function back into a list buffer of length `n`. -/
def listOf (f : ℕ → ℝ) (n : ℕ) : List ℝ := (List.range n).map f

/-- `init_dist` over list buffers: the two `assert_eq!` length checks of
src/level_set.rs:176–177, then the loop (with a panic on any
out-of-bounds access). -/
def init_dist_run (d u : List ℝ) (dim : ℕ × ℕ) : Option (List ℝ) :=
  if dim.1 * dim.2 = u.length ∧ dim.1 * dim.2 = d.length then
    if (initAccess dim.1 dim.2).all (fun q => decide (q < u.length)) then
      some (listOf (init_dist (funOf d) (funOf u) dim) d.length)
    else none
  else none

/-- `init_dist_3d` over list buffers: the two `assert_eq!` length checks
of src/level_set.rs:47–48, then the loop. -/
def init_dist_3d_run (d u : List ℝ) (dim : ℕ × ℕ × ℕ) : Option (List ℝ) :=
  if dim.1 * dim.2.1 * dim.2.2 = u.length ∧
      dim.1 * dim.2.1 * dim.2.2 = d.length then
    if (initAccess3 dim.1 dim.2.1 dim.2.2).all
        (fun q => decide (q < u.length)) then
      some (listOf (init_dist_3d (funOf d) (funOf u) dim) d.length)
    else none
  else none

/-- `signed_distance` over list buffers: the two `assert_eq!` length
checks of src/lib.rs:19–20, then `init_dist`, the sweep and the
sign-and-scale pass. -/
def signed_distance_run (d u : List ℝ) (dim : ℕ × ℕ) (h : ℝ) :
    Option (List ℝ) :=
  if dim.1 * dim.2 = u.length ∧ dim.1 * dim.2 = d.length then
    if ((initAccess dim.1 dim.2).all (fun q => decide (q < u.length))
        && (sweepAccess dim.1 dim.2).all (fun q => decide (q < d.length))) then
      some (listOf (signed_distance (funOf d) (funOf u) dim h) d.length)
    else none
  else none

/-! ### Sign characterization of `triangle_dist` -/

/-- Case split over the three vertices of a triangle. -/
lemma fin3_cases (P : Fin 3 → Prop) (h0 : P 0) (h1 : P 1) (h2 : P 2) :
    ∀ m, P m := by
  intro m
  match m with
  | 0 => exact h0
  | 1 => exact h1
  | 2 => exact h2

/-- Case split over the four vertices of a tetrahedron. -/
lemma fin4_cases (P : Fin 4 → Prop) (h0 : P 0) (h1 : P 1) (h2 : P 2)
    (h3 : P 3) : ∀ m, P m := by
  intro m
  match m with
  | 0 => exact h0
  | 1 => exact h1
  | 2 => exact h2
  | 3 => exact h3

lemma triCase_none_iff (a b c : ℝ) (ha : 0 ≤ a) :
    triCase a b c = none ↔ 0 < a ∧ 0 < b ∧ 0 < c := by
  constructor
  · intro h
    simp only [triCase] at h
    split_ifs at h with hb hc z1 z2 z3 z4 z5 z6 z7 g1 g2 g3 g4
    simp at h
    exact ⟨lt_of_le_of_ne ha (Ne.symm z5), lt_of_le_of_ne hb (Ne.symm z6),
      lt_of_le_of_ne hc (Ne.symm z7)⟩
  · rintro ⟨ha', hb', hc'⟩
    simp [triCase, hb'.le, hc'.le, ha'.ne', hb'.ne', hc'.ne']

theorem triangle_dist_none_iff (u : Fin 3 → ℝ) :
    triangle_dist u = none ↔ (∀ m, 0 < u m) ∨ (∀ m, u m < 0) := by
  unfold triangle_dist
  by_cases h0 : u 0 < 0
  · rw [if_pos h0, triCase_none_iff _ _ _ (by linarith)]
    constructor
    · rintro ⟨h1, h2, h3⟩
      right
      exact fin3_cases _ h0 (by linarith) (by linarith)
    · rintro (hp | hn)
      · exact absurd (hp 0) (by linarith)
      · exact ⟨by linarith, by linarith [hn 1], by linarith [hn 2]⟩
  · rw [if_neg h0, triCase_none_iff _ _ _ (by linarith)]
    constructor
    · rintro ⟨h1, h2, h3⟩
      left
      exact fin3_cases _ h1 h2 h3
    · rintro (hp | hn)
      · exact ⟨hp 0, hp 1, hp 2⟩
      · exact absurd (hn 0) (by linarith)

/-- Claim C4: `triangle_dist` returns `None` iff all three values share
strict sign (all strictly positive or all strictly negative); in every
other case — including any vertex value exactly zero — it returns
`Some`. -/
theorem claim_C4 (u : Fin 3 → ℝ) :
    (triangle_dist u = none ↔ ((∀ m, 0 < u m) ∨ (∀ m, u m < 0))) ∧
      (¬((∀ m, 0 < u m) ∨ (∀ m, u m < 0)) → ∃ e, triangle_dist u = some e) := by
  refine ⟨triangle_dist_none_iff u, fun hmix => ?_⟩
  have h := (triangle_dist_none_iff u).not.mpr hmix
  cases he : triangle_dist u with
  | none => exact absurd he h
  | some e => exact ⟨e, rfl⟩

/-- Witness for claim C4 at the concrete mixed-sign input `[0, 0, 0]`. -/
theorem claim_C4_witness : ∃ e, triangle_dist ![(0 : ℝ), 0, 0] = some e :=
  (claim_C4 ![(0 : ℝ), 0, 0]).2 (by
    rintro (hp | hn)
    · exact lt_irrefl 0 (by simpa using hp 0)
    · exact lt_irrefl 0 (by simpa using hn 0))

/-! ### Bounds on the values produced by `triangle_dist`

Every distance value returned for a unit right triangle lies in
`[0, √2]` (the triangle's diameter); in particular it is non-negative
and strictly below the sentinel. -/

lemma abs_le_sqrt_right (x y : ℝ) : |y| ≤ Real.sqrt (x * x + y * y) := by
  have h1 : |y| = Real.sqrt (y ^ 2) := (Real.sqrt_sq_eq_abs y).symm
  rw [h1]
  exact Real.sqrt_le_sqrt (by nlinarith [mul_self_nonneg x])

lemma abs_le_sqrt_left (x y : ℝ) : |x| ≤ Real.sqrt (x * x + y * y) := by
  have h1 : |x| = Real.sqrt (x ^ 2) := (Real.sqrt_sq_eq_abs x).symm
  rw [h1]
  exact Real.sqrt_le_sqrt (by nlinarith [mul_self_nonneg y])

lemma add_le_sqrt_two_mul (x y : ℝ) (hx : 0 ≤ x) (hy : 0 ≤ y) :
    x + y ≤ Real.sqrt 2 * Real.sqrt (x * x + y * y) := by
  have hs : Real.sqrt 2 * Real.sqrt (x * x + y * y)
      = Real.sqrt (2 * (x * x + y * y)) :=
    (Real.sqrt_mul (by norm_num) _).symm
  rw [hs]
  have h1 : x + y = Real.sqrt ((x + y) ^ 2) := (Real.sqrt_sq (by linarith)).symm
  rw [h1]
  exact Real.sqrt_le_sqrt (by nlinarith [sq_nonneg (x - y)])

/-- Lift entrywise facts to the `![x, y, z]` vector. -/
lemma vec3_forall {x y z : ℝ} (P : ℝ → Prop) (hx : P x) (hy : P y)
    (hz : P z) : ∀ m, P (![x, y, z] m) :=
  fin3_cases _ hx hy hz

lemma triCase_bounds (a b c : ℝ) (ha : 0 ≤ a) (e : Fin 3 → ℝ)
    (h : triCase a b c = some e) : ∀ m, 0 ≤ e m ∧ e m ≤ Real.sqrt 2 := by
  have hs2 : (0 : ℝ) ≤ Real.sqrt 2 := Real.sqrt_nonneg 2
  have h1s2 := one_le_sqrt_two
  simp only [triCase] at h
  split_ifs at h with hb hc z1 z2 z3 z4 z5 z6 z7 g1 g2 hc2 g3 g4 <;>
    (try (injection h with h; subst h))
  -- zero-pattern arms
  · exact vec3_forall (fun t => 0 ≤ t ∧ t ≤ Real.sqrt 2) ⟨le_refl 0, hs2⟩ ⟨le_refl 0, hs2⟩ ⟨le_refl 0, hs2⟩
  · refine vec3_forall (fun t => 0 ≤ t ∧ t ≤ Real.sqrt 2) ⟨Real.sqrt_nonneg _, ?_⟩ ⟨le_refl 0, hs2⟩
      ⟨le_refl 0, hs2⟩
    exact Real.sqrt_le_sqrt (by norm_num)
  · exact vec3_forall (fun t => 0 ≤ t ∧ t ≤ Real.sqrt 2) ⟨le_refl 0, hs2⟩ ⟨zero_le_one, h1s2⟩ ⟨le_refl 0, hs2⟩
  · exact vec3_forall (fun t => 0 ≤ t ∧ t ≤ Real.sqrt 2) ⟨le_refl 0, hs2⟩ ⟨le_refl 0, hs2⟩ ⟨zero_le_one, h1s2⟩
  · exact vec3_forall (fun t => 0 ≤ t ∧ t ≤ Real.sqrt 2) ⟨le_refl 0, hs2⟩ ⟨zero_le_one, h1s2⟩ ⟨zero_le_one, h1s2⟩
  · exact vec3_forall (fun t => 0 ≤ t ∧ t ≤ Real.sqrt 2) ⟨zero_le_one, h1s2⟩ ⟨le_refl 0, hs2⟩
      ⟨Real.sqrt_nonneg _, le_refl _⟩
  · exact vec3_forall (fun t => 0 ≤ t ∧ t ≤ Real.sqrt 2) ⟨zero_le_one, h1s2⟩ ⟨Real.sqrt_nonneg _, le_refl _⟩
      ⟨le_refl 0, hs2⟩
  -- (the `none` arm is closed by `injection` above)
  -- branch A: 0 ≤ b, c < 0
  · have hc' : c < 0 := not_le.mp hc
    have dac : (0 : ℝ) < a - c := by linarith
    have dbc : (0 : ℝ) < b - c := by linarith
    have hgac : a - c ≤ Real.sqrt ((b - a) * (b - a) + (c - a) * (c - a)) := by
      have := abs_le_sqrt_right (b - a) (c - a)
      rwa [abs_of_neg (by linarith : c - a < 0), neg_sub] at this
    have hgpos : (0 : ℝ) < Real.sqrt ((b - a) * (b - a) + (c - a) * (c - a)) :=
      lt_of_lt_of_le dac hgac
    refine vec3_forall (fun t => 0 ≤ t ∧ t ≤ Real.sqrt 2) ⟨div_nonneg ha hgpos.le, ?_⟩
      ⟨div_nonneg (mul_nonneg hs2 hb) dbc.le, ?_⟩ ⟨?_, ?_⟩
    · exact le_trans ((div_le_one hgpos).mpr (by linarith)) h1s2
    · exact (div_le_iff₀ dbc).mpr
        (mul_le_mul_of_nonneg_left (by linarith) hs2)
    · have : a / (a - c) ≤ 1 := (div_le_one dac).mpr (by linarith)
      linarith
    · have : 0 ≤ a / (a - c) := div_nonneg ha dac.le
      linarith
  · have hc' : c < 0 := not_le.mp hc
    have hba : (0 : ℝ) < b - a := by push_neg at g1; linarith
    have dac : (0 : ℝ) < a - c := by linarith
    have dbc : (0 : ℝ) < b - c := by linarith
    have hkey : (b - a) + (a - c)
        ≤ Real.sqrt 2 * Real.sqrt ((b - a) * (b - a) + (c - a) * (c - a)) := by
      have h0 := add_le_sqrt_two_mul (b - a) (a - c) hba.le dac.le
      have hrw : (b - a) * (b - a) + (a - c) * (a - c)
          = (b - a) * (b - a) + (c - a) * (c - a) := by ring
      rwa [hrw] at h0
    have hgpos : (0 : ℝ) < Real.sqrt ((b - a) * (b - a) + (c - a) * (c - a)) := by
      have := abs_le_sqrt_right (b - a) (c - a)
      rw [abs_of_neg (by linarith : c - a < 0), neg_sub] at this
      linarith
    have hi12a : (0 : ℝ) ≤ Real.sqrt 2 * b / (b - c) :=
      div_nonneg (mul_nonneg hs2 hb) dbc.le
    have hi12b : Real.sqrt 2 * b / (b - c) ≤ Real.sqrt 2 :=
      (div_le_iff₀ dbc).mpr (mul_le_mul_of_nonneg_left (by linarith) hs2)
    refine vec3_forall (fun t => 0 ≤ t ∧ t ≤ Real.sqrt 2) ⟨div_nonneg ha dac.le, ?_⟩
      ⟨div_nonneg hb hgpos.le, ?_⟩ ⟨by linarith, by linarith⟩
    · exact le_trans ((div_le_one dac).mpr (by linarith)) h1s2
    · exact (div_le_iff₀ hgpos).mpr (by linarith)
  · have hc' : c < 0 := not_le.mp hc
    have dac : (0 : ℝ) < a - c := by linarith
    have dbc : (0 : ℝ) < b - c := by linarith
    have hgac : a - c ≤ Real.sqrt ((b - a) * (b - a) + (c - a) * (c - a)) := by
      have := abs_le_sqrt_right (b - a) (c - a)
      rwa [abs_of_neg (by linarith : c - a < 0), neg_sub] at this
    have hgpos : (0 : ℝ) < Real.sqrt ((b - a) * (b - a) + (c - a) * (c - a)) :=
      lt_of_lt_of_le dac hgac
    refine vec3_forall (fun t => 0 ≤ t ∧ t ≤ Real.sqrt 2) ⟨div_nonneg ha dac.le, ?_⟩
      ⟨div_nonneg (mul_nonneg hs2 hb) dbc.le, ?_⟩
      ⟨div_nonneg (by linarith) hgpos.le, ?_⟩
    · exact le_trans ((div_le_one dac).mpr (by linarith)) h1s2
    · exact (div_le_iff₀ dbc).mpr (mul_le_mul_of_nonneg_left (by linarith) hs2)
    · exact le_trans ((div_le_one hgpos).mpr (by linarith)) h1s2
  -- branch B: b < 0, 0 ≤ c
  · have hb' : b < 0 := not_le.mp hb
    have dab : (0 : ℝ) < a - b := by linarith
    have dbc : b - c < 0 := by linarith
    have hgab : a - b ≤ Real.sqrt ((b - a) * (b - a) + (c - a) * (c - a)) := by
      have := abs_le_sqrt_left (b - a) (c - a)
      rwa [abs_of_neg (by linarith : b - a < 0), neg_sub] at this
    have hgpos : (0 : ℝ) < Real.sqrt ((b - a) * (b - a) + (c - a) * (c - a)) :=
      lt_of_lt_of_le dab hgab
    have hnum : Real.sqrt 2 * b ≤ 0 := by
      have := mul_nonneg hs2 (by linarith : (0 : ℝ) ≤ -b)
      nlinarith
    have hi12a : (0 : ℝ) ≤ Real.sqrt 2 * b / (b - c) :=
      div_nonneg_of_nonpos hnum dbc.le
    have hi12b : Real.sqrt 2 * b / (b - c) ≤ Real.sqrt 2 :=
      (div_le_iff_of_neg dbc).mpr (mul_le_mul_of_nonneg_left (by linarith) hs2)
    have hi01a : (0 : ℝ) ≤ a / (a - b) := div_nonneg ha dab.le
    have hi01b : a / (a - b) ≤ 1 := (div_le_one dab).mpr (by linarith)
    refine vec3_forall (fun t => 0 ≤ t ∧ t ≤ Real.sqrt 2) ⟨div_nonneg ha hgpos.le, ?_⟩
      ⟨by linarith, by linarith⟩ ⟨by linarith, by linarith⟩
    exact le_trans ((div_le_one hgpos).mpr (by linarith)) h1s2
  · have hb' : b < 0 := not_le.mp hb
    have dab : (0 : ℝ) < a - b := by linarith
    have dbc : b - c < 0 := by linarith
    have hgab : a - b ≤ Real.sqrt ((b - a) * (b - a) + (c - a) * (c - a)) := by
      have := abs_le_sqrt_left (b - a) (c - a)
      rwa [abs_of_neg (by linarith : b - a < 0), neg_sub] at this
    have hgpos : (0 : ℝ) < Real.sqrt ((b - a) * (b - a) + (c - a) * (c - a)) :=
      lt_of_lt_of_le dab hgab
    have hnum : Real.sqrt 2 * b ≤ 0 := by
      have := mul_nonneg hs2 (by linarith : (0 : ℝ) ≤ -b)
      nlinarith
    have hi12a : (0 : ℝ) ≤ Real.sqrt 2 * b / (b - c) :=
      div_nonneg_of_nonpos hnum dbc.le
    have hi12b : Real.sqrt 2 * b / (b - c) ≤ Real.sqrt 2 :=
      (div_le_iff_of_neg dbc).mpr (mul_le_mul_of_nonneg_left (by linarith) hs2)
    refine vec3_forall (fun t => 0 ≤ t ∧ t ≤ Real.sqrt 2) ⟨div_nonneg ha dab.le, ?_⟩
      ⟨div_nonneg (by linarith) hgpos.le, ?_⟩ ⟨by linarith, by linarith⟩
    · exact le_trans ((div_le_one dab).mpr (by linarith)) h1s2
    · exact le_trans ((div_le_one hgpos).mpr (by linarith)) h1s2
  · have hb' : b < 0 := not_le.mp hb
    have hca : (0 : ℝ) < c - a := by push_neg at g3; linarith
    have dab : (0 : ℝ) < a - b := by linarith
    have dbc : b - c < 0 := by linarith
    have hkey : (a - b) + (c - a)
        ≤ Real.sqrt 2 * Real.sqrt ((b - a) * (b - a) + (c - a) * (c - a)) := by
      have h0 := add_le_sqrt_two_mul (a - b) (c - a) dab.le hca.le
      have hrw : (a - b) * (a - b) + (c - a) * (c - a)
          = (b - a) * (b - a) + (c - a) * (c - a) := by ring
      rwa [hrw] at h0
    have hgpos : (0 : ℝ) < Real.sqrt ((b - a) * (b - a) + (c - a) * (c - a)) := by
      have := abs_le_sqrt_left (b - a) (c - a)
      rw [abs_of_neg (by linarith : b - a < 0), neg_sub] at this
      linarith
    have hnum : Real.sqrt 2 * b ≤ 0 := by
      have := mul_nonneg hs2 (by linarith : (0 : ℝ) ≤ -b)
      nlinarith
    have hi12a : (0 : ℝ) ≤ Real.sqrt 2 * b / (b - c) :=
      div_nonneg_of_nonpos hnum dbc.le
    have hc'' : (0 : ℝ) ≤ c := by linarith
    refine vec3_forall (fun t => 0 ≤ t ∧ t ≤ Real.sqrt 2) ⟨div_nonneg ha dab.le, ?_⟩
      ⟨hi12a, (div_le_iff_of_neg dbc).mpr
        (mul_le_mul_of_nonneg_left (by linarith) hs2)⟩
      ⟨div_nonneg hc'' hgpos.le, ?_⟩
    · exact le_trans ((div_le_one dab).mpr (by linarith)) h1s2
    · exact (div_le_iff₀ hgpos).mpr (by linarith)
  -- branch C: b < 0, c < 0
  · have hb' : b < 0 := not_le.mp hb
    have hc' : c < 0 := not_le.mp hc2
    have dba : b - a < 0 := by linarith
    have dca : c - a < 0 := by linarith
    have hgab : a - b ≤ Real.sqrt ((b - a) * (b - a) + (c - a) * (c - a)) := by
      have := abs_le_sqrt_left (b - a) (c - a)
      rwa [abs_of_neg dba, neg_sub] at this
    have hgpos : (0 : ℝ) < Real.sqrt ((b - a) * (b - a) + (c - a) * (c - a)) :=
      lt_of_lt_of_le (by linarith) hgab
    refine vec3_forall (fun t => 0 ≤ t ∧ t ≤ Real.sqrt 2) ⟨div_nonneg ha hgpos.le, ?_⟩
      ⟨div_nonneg_of_nonpos hb'.le dba.le, ?_⟩
      ⟨div_nonneg_of_nonpos hc'.le dca.le, ?_⟩
    · exact le_trans ((div_le_one hgpos).mpr (by linarith)) h1s2
    · exact le_trans ((div_le_iff_of_neg dba).mpr (by linarith)) h1s2
    · exact le_trans ((div_le_iff_of_neg dca).mpr (by linarith)) h1s2

/-- Every value in a `some` result of `triangle_dist` lies in `[0, √2]`. -/
lemma triangle_dist_bounds (u : Fin 3 → ℝ) (e : Fin 3 → ℝ)
    (h : triangle_dist u = some e) (m : Fin 3) :
    0 ≤ e m ∧ e m ≤ Real.sqrt 2 := by
  unfold triangle_dist at h
  split_ifs at h with h0
  · exact triCase_bounds _ _ _ (by linarith) e h m
  · exact triCase_bounds _ _ _ (by linarith) e h m

/-! ### Sign characterization and value formula of `tetrahedron_dist` -/

lemma n_pos_eq_zero_iff (u : Fin 4 → ℝ) : n_pos u = 0 ↔ ∀ m, u m < 0 := by
  by_cases h0 : 0 ≤ u 0 <;> by_cases h1 : 0 ≤ u 1 <;>
    by_cases h2 : 0 ≤ u 2 <;> by_cases h3 : 0 ≤ u 3 <;>
    simp only [n_pos, h0, h1, h2, h3, if_true, if_false] <;>
    norm_num <;>
    first
      | exact fin4_cases _ (not_le.mp h0) (not_le.mp h1) (not_le.mp h2)
          (not_le.mp h3)
      | exact ⟨0, h0⟩
      | exact ⟨1, h1⟩
      | exact ⟨2, h2⟩
      | exact ⟨3, h3⟩

lemma n_pos_eq_four_iff (u : Fin 4 → ℝ) : n_pos u = 4 ↔ ∀ m, 0 ≤ u m := by
  by_cases h0 : 0 ≤ u 0 <;> by_cases h1 : 0 ≤ u 1 <;>
    by_cases h2 : 0 ≤ u 2 <;> by_cases h3 : 0 ≤ u 3 <;>
    simp only [n_pos, h0, h1, h2, h3, if_true, if_false] <;>
    norm_num <;>
    first
      | exact fin4_cases _ h0 h1 h2 h3
      | exact ⟨0, not_le.mp h0⟩
      | exact ⟨1, not_le.mp h1⟩
      | exact ⟨2, not_le.mp h2⟩
      | exact ⟨3, not_le.mp h3⟩

lemma tetrahedron_dist_none_iff (u : Fin 4 → ℝ) :
    tetrahedron_dist u = none ↔ ((∀ m, 0 ≤ u m) ∨ (∀ m, u m < 0)) := by
  unfold tetrahedron_dist
  by_cases hn : n_pos u = 0 ∨ n_pos u = 4
  · rw [if_pos hn]
    simp only [true_iff]
    rcases hn with h | h
    · exact Or.inr ((n_pos_eq_zero_iff u).mp h)
    · exact Or.inl ((n_pos_eq_four_iff u).mp h)
  · rw [if_neg hn]
    simp only [reduceCtorEq, false_iff]
    rintro (h | h)
    · exact hn (Or.inr ((n_pos_eq_four_iff u).mpr h))
    · exact hn (Or.inl ((n_pos_eq_zero_iff u).mpr h))

lemma tetrahedron_dist_some_val (u : Fin 4 → ℝ) (r : Fin 4 → ℝ)
    (hr : tetrahedron_dist u = some r) (m : Fin 4) :
    r m = |tetV u m| / Real.sqrt (tetSqGrad (tetV u)) := by
  unfold tetrahedron_dist at hr
  split_ifs at hr with hn
  injection hr with hr
  rw [← hr]
  simp [one_div, div_eq_mul_inv]

/-- Claim C6: `tetrahedron_dist` returns `None` iff the four values have
unanimous sign, a value exactly zero counting as positive; otherwise it
returns `Some` with the entry for vertex `m` equal to `|value|/|gradient|`,
the squared gradient norm being the sum of squared differences between
consecutive vertex values along the Hamiltonian vertex ordering.  Per
spec §4.1, the values entering the formula are the ones after the small
epsilon `tiny` has been added to each non-negative vertex value
(`tetV u`). -/
theorem claim_C6 (u : Fin 4 → ℝ) :
    (tetrahedron_dist u = none ↔ ((∀ m, 0 ≤ u m) ∨ (∀ m, u m < 0))) ∧
      ∀ r, tetrahedron_dist u = some r →
        ∀ m, r m = |tetV u m| / Real.sqrt (tetSqGrad (tetV u)) :=
  ⟨tetrahedron_dist_none_iff u, fun r hr m => tetrahedron_dist_some_val u r hr m⟩

/-- Witness for claim C6: the all-nonnegative input `[0, 0, 0, 0]` yields
`none`. -/
theorem claim_C6_witness : tetrahedron_dist ![(0 : ℝ), 0, 0, 0] = none :=
  (claim_C6 ![(0 : ℝ), 0, 0, 0]).1.mpr
    (Or.inl (fin4_cases _ (by norm_num) (by norm_num) (by norm_num)
      (by norm_num)))

/-! ### The fold of `min`-updates computes a pointwise minimum -/

/-- Applying a list of `min`-update events, the final value at `q` is the
`min`-fold of the values of the events targeting `q`, in order, over the
initial value. -/
lemma foldl_updateMin_apply (l : List (ℕ × ℝ)) (d : ℕ → ℝ) (q : ℕ) :
    (l.foldl (fun d ev => updateMin d ev.1 ev.2) d) q
      = (l.filterMap fun ev => if ev.1 = q then some ev.2 else none).foldl
          min (d q) := by
  induction l generalizing d with
  | nil => rfl
  | cons a tl ih =>
    simp only [List.foldl_cons, List.filterMap_cons]
    by_cases hq : a.1 = q
    · rw [if_pos hq, List.foldl_cons, ih]
      congr 1
      subst hq
      simp [updateMin, Function.update_same, min_comm]
    · rw [if_neg hq, ih]
      congr 1
      exact Function.update_noteq (fun h => hq h.symm) _ d

lemma foldl_min_le_init (l : List ℝ) (a : ℝ) : l.foldl min a ≤ a := by
  induction l generalizing a with
  | nil => exact le_refl a
  | cons x tl ih =>
    exact le_trans (ih (min a x)) (min_le_left a x)

lemma foldl_min_le_mem (l : List ℝ) (a x : ℝ) (hx : x ∈ l) :
    l.foldl min a ≤ x := by
  induction l generalizing a with
  | nil => cases hx
  | cons y tl ih =>
    rcases List.mem_cons.mp hx with h | h
    · subst h
      exact le_trans (foldl_min_le_init tl (min a x)) (min_le_right a x)
    · exact ih (min a y) h

lemma le_foldl_min (l : List ℝ) (a b : ℝ) (ha : b ≤ a)
    (hl : ∀ x ∈ l, b ≤ x) : b ≤ l.foldl min a := by
  induction l generalizing a with
  | nil => exact ha
  | cons x tl ih =>
    exact ih (min a x) (le_min ha (hl x (List.mem_cons_self x tl))) fun y hy =>
      hl y (List.mem_cons_of_mem x hy)

lemma foldl_min_mem_or_init (l : List ℝ) (a : ℝ) :
    l.foldl min a = a ∨ l.foldl min a ∈ l := by
  induction l generalizing a with
  | nil => exact Or.inl rfl
  | cons x tl ih =>
    rcases ih (min a x) with h | h
    · rcases min_cases a x with ⟨hm, -⟩ | ⟨hm, -⟩
      · exact Or.inl (by rw [List.foldl_cons, h, hm])
      · exact Or.inr (by rw [List.foldl_cons, h, hm]; exact List.mem_cons_self x tl)
    · exact Or.inr (List.mem_cons_of_mem x h)

/-! ### The contributions received by a node in `init_dist` -/

/-- The values contributed to node `q` by the `Some`-returning triangles
incident to it, over the whole double loop, in loop order. -/
def contribs (u : ℕ → ℝ) (nx ny q : ℕ) : List ℝ :=
  (initEvents u nx ny).filterMap fun ev => if ev.1 = q then some ev.2 else none

lemma init_dist_eq_foldl (d u : ℕ → ℝ) (nx ny q : ℕ) :
    init_dist d u (nx, ny) q
      = (contribs u nx ny q).foldl min (sentinelFill d (nx * ny) q) :=
  foldl_updateMin_apply _ _ q

/-- Every event value produced by `triEvents` is an entry of a
`Some` result of the corresponding `triangle_dist` call. -/
lemma triEvents_val {q0 q1 q2 : ℕ} {r : Option (Fin 3 → ℝ)} {ev : ℕ × ℝ}
    (h : ev ∈ triEvents q0 q1 q2 r) :
    ∃ e m, r = some e ∧ ev.2 = e m := by
  cases r with
  | none => cases h
  | some e =>
    simp only [triEvents, List.mem_cons, List.mem_singleton] at h
    rcases h with h | h | h | h
    · exact ⟨e, 0, rfl, by rw [h]⟩
    · exact ⟨e, 1, rfl, by rw [h]⟩
    · exact ⟨e, 2, rfl, by rw [h]⟩
    · cases h

/-- Every value in `contribs` is a `triangle_dist` output entry, hence
lies in `[0, √2]`. -/
lemma contribs_bounds (u : ℕ → ℝ) (nx ny q : ℕ) (x : ℝ)
    (hx : x ∈ contribs u nx ny q) : 0 ≤ x ∧ x ≤ Real.sqrt 2 := by
  obtain ⟨ev, hev, hx⟩ := List.mem_filterMap.mp hx
  have hx2 : ev.2 = x := by
    by_cases h : ev.1 = q
    · rw [if_pos h] at hx
      exact Option.some.inj hx
    · rw [if_neg h] at hx
      cases hx
  obtain ⟨ji, -, hev⟩ := List.mem_flatMap.mp hev
  rcases List.mem_append.mp hev with h | h
  · obtain ⟨e, m, hr, hval⟩ := triEvents_val h
    rw [← hx2, hval]
    exact triangle_dist_bounds _ e hr m
  · obtain ⟨e, m, hr, hval⟩ := triEvents_val h
    rw [← hx2, hval]
    exact triangle_dist_bounds _ e hr m

/-- Claim C3: after `init_dist`, the entry at any node `q` of the grid is
the minimum over all incident triangles (of the two-triangles-per-cell
decomposition) for which `triangle_dist` returned `Some` of the returned
distance at `q`'s vertex position — and is the sentinel `FMAX` if no
incident triangle straddles the interface (no contribution). -/
theorem claim_C3 (d u : ℕ → ℝ) (nx ny q : ℕ) (hq : q < nx * ny) :
    (contribs u nx ny q = [] → init_dist d u (nx, ny) q = FMAX) ∧
      (contribs u nx ny q ≠ [] →
        init_dist d u (nx, ny) q ∈ contribs u nx ny q ∧
          ∀ x ∈ contribs u nx ny q, init_dist d u (nx, ny) q ≤ x) := by
  have hfill : sentinelFill d (nx * ny) q = FMAX := if_pos hq
  constructor
  · intro hnil
    rw [init_dist_eq_foldl, hnil, List.foldl_nil, hfill]
  · intro hne
    have hle : ∀ x ∈ contribs u nx ny q, init_dist d u (nx, ny) q ≤ x := by
      intro x hx
      rw [init_dist_eq_foldl]
      exact foldl_min_le_mem _ _ x hx
    refine ⟨?_, hle⟩
    rcases foldl_min_mem_or_init (contribs u nx ny q)
        (sentinelFill d (nx * ny) q) with h | h
    · exfalso
      obtain ⟨x, hx⟩ := List.exists_mem_of_ne_nil _ hne
      have h1 := hle x hx
      have h2 := (contribs_bounds u nx ny q x hx).2
      rw [init_dist_eq_foldl, h, hfill] at h1
      linarith [sqrt_two_lt_FMAX]
    · rw [init_dist_eq_foldl]
      exact h

/-- Witness for claim C3: on a 2×2 grid with all-positive samples no
triangle contributes, so the node keeps the sentinel. -/
theorem claim_C3_witness :
    init_dist (fun _ => 0) (fun _ => 1) (2, 2) 0 = FMAX := by
  refine (claim_C3 (fun _ => 0) (fun _ => 1) 2 2 0 (by norm_num)).1 ?_
  have hnone : ∀ v : Fin 3 → ℝ, (∀ m, 0 < v m) → triangle_dist v = none :=
    fun v hv => (triangle_dist_none_iff v).mpr (Or.inl hv)
  simp only [contribs, initEvents, cellList]
  norm_num [List.range'_succ, cellEvents,
    hnone ![(1 : ℝ), 1, 1] (vec3_forall (fun t => 0 < t) one_pos one_pos
      one_pos),
    triEvents]

/-- Claim C5: every entry of a `Some` result of `triangle_dist` is
non-negative and bounded by the sentinel (finite), and every entry of
`d` immediately after `init_dist` is non-negative and bounded by the
sentinel, the sentinel itself counting as a permissible value. -/
theorem claim_C5 :
    (∀ (v e : Fin 3 → ℝ), triangle_dist v = some e →
        ∀ m, 0 ≤ e m ∧ e m ≤ FMAX) ∧
      ∀ (d u : ℕ → ℝ) (nx ny q : ℕ), q < nx * ny →
        0 ≤ init_dist d u (nx, ny) q ∧ init_dist d u (nx, ny) q ≤ FMAX := by
  constructor
  · intro v e he m
    obtain ⟨h0, h2⟩ := triangle_dist_bounds v e he m
    exact ⟨h0, le_trans h2 sqrt_two_lt_FMAX.le⟩
  · intro d u nx ny q hq
    have hfill : sentinelFill d (nx * ny) q = FMAX := if_pos hq
    rw [init_dist_eq_foldl, hfill]
    constructor
    · exact le_foldl_min _ _ 0 FMAX_pos.le fun x hx =>
        (contribs_bounds u nx ny q x hx).1
    · exact foldl_min_le_init _ _

/-- Witness for claim C5 at a concrete node of a 1×1 grid. -/
theorem claim_C5_witness :
    0 ≤ init_dist (fun _ => 0) (fun _ => 1) (1, 1) 0 ∧
      init_dist (fun _ => 0) (fun _ => 1) (1, 1) 0 ≤ FMAX :=
  claim_C5.2 (fun _ => 0) (fun _ => 1) 1 1 0 (by norm_num)

/-! ### Index bounds of the grid loops -/

lemma idx_lt {nx ny i j : ℕ} (hi : i < nx) (hj : j < ny) :
    j * nx + i < nx * ny := by
  calc j * nx + i < j * nx + nx := by omega
    _ = (j + 1) * nx := by ring
    _ ≤ ny * nx := Nat.mul_le_mul_right nx hj
    _ = nx * ny := Nat.mul_comm ny nx

lemma cellList_mem {nx ny : ℕ} {ji : ℕ × ℕ} (h : ji ∈ cellList nx ny) :
    1 ≤ ji.1 ∧ ji.1 < ny ∧ 1 ≤ ji.2 ∧ ji.2 < nx := by
  obtain ⟨j, hj, h2⟩ := List.mem_flatMap.mp h
  obtain ⟨i, hi, rfl⟩ := List.mem_map.mp h2
  rw [List.mem_range'_1] at hj hi
  exact ⟨hj.1, by omega, hi.1, by omega⟩

lemma sweepList_mem {nx ny : ℕ} {ij : ℕ × ℕ} (h : ij ∈ sweepList nx ny) :
    ij.1 < nx ∧ ij.2 < ny := by
  simp only [sweepList, List.mem_append, List.mem_flatMap, List.mem_map,
    List.mem_reverse, List.mem_range] at h
  rcases h with ((h | h) | h) | h <;>
    · obtain ⟨j, hj, i, hi, rfl⟩ := h
      exact ⟨hi, hj⟩

/-! ### Uniform-sign inputs leave `init_dist` at the sentinel -/

lemma cellEvents_nil (u : ℕ → ℝ) (nx : ℕ) (ji : ℕ × ℕ)
    (h1 : triangle_dist ![u (ji.1 * nx + ji.2 - nx - 1),
      u (ji.1 * nx + ji.2 - nx), u (ji.1 * nx + ji.2 - 1)] = none)
    (h2 : triangle_dist ![u (ji.1 * nx + ji.2), u (ji.1 * nx + ji.2 - nx),
      u (ji.1 * nx + ji.2 - 1)] = none) :
    cellEvents u nx ji = [] := by
  simp [cellEvents, h1, h2, triEvents]

lemma initEvents_nil_of_uniform (u : ℕ → ℝ) (nx ny : ℕ)
    (hu : (∀ i, i < nx * ny → 0 < u i) ∨ (∀ i, i < nx * ny → u i < 0)) :
    initEvents u nx ny = [] := by
  apply List.flatMap_eq_nil_iff.mpr
  intro ji hji
  obtain ⟨hj1, hj2, hi1, hi2⟩ := cellList_mem hji
  have hs : ji.1 * nx + ji.2 < nx * ny := idx_lt hi2 hj2
  have hr : ∀ r, r ≤ ji.1 * nx + ji.2 → r < nx * ny := fun r h =>
    lt_of_le_of_lt h hs
  have hnone : ∀ a b c : ℕ, a ≤ ji.1 * nx + ji.2 → b ≤ ji.1 * nx + ji.2 →
      c ≤ ji.1 * nx + ji.2 → triangle_dist ![u a, u b, u c] = none := by
    intro a b c haa hbb hcc
    rcases hu with hp | hn
    · exact (triangle_dist_none_iff _).mpr (Or.inl (vec3_forall (fun t => 0 < t)
        (hp a (hr a haa)) (hp b (hr b hbb)) (hp c (hr c hcc))))
    · exact (triangle_dist_none_iff _).mpr (Or.inr (vec3_forall (fun t => t < 0)
        (hn a (hr a haa)) (hn b (hr b hbb)) (hn c (hr c hcc))))
  exact cellEvents_nil u nx ji
    (hnone _ _ _ ((Nat.sub_le _ _).trans (Nat.sub_le _ _)) (Nat.sub_le _ _)
      (Nat.sub_le _ _))
    (hnone _ _ _ (le_refl _) (Nat.sub_le _ _) (Nat.sub_le _ _))

lemma init_dist_sentinel (d u : ℕ → ℝ) (nx ny : ℕ)
    (hnil : initEvents u nx ny = []) :
    ∀ q, q < nx * ny → init_dist d u (nx, ny) q = FMAX := by
  intro q hq
  show ((initEvents u nx ny).foldl _ (sentinelFill d (nx * ny))) q = FMAX
  rw [hnil, List.foldl_nil]
  exact if_pos hq

/-! ### Pointwise preservation through the sweeps -/

/-- Generic preservation of a buffer predicate through a fold. -/
lemma foldl_pres {α : Type _} (P : (ℕ → ℝ) → Prop) (f : (ℕ → ℝ) → α → (ℕ → ℝ)) :
    ∀ l : List α, (∀ x ∈ l, ∀ d, P d → P (f d x)) → ∀ d, P d → P (l.foldl f d)
  | [], _, _, hd => hd
  | x :: tl, hf, d, hd => by
    simp only [List.foldl_cons]
    exact foldl_pres P f tl (fun y hy => hf y (List.mem_cons_of_mem x hy))
      (f d x) (hf x (List.mem_cons_self x tl) d hd)

lemma axisMin_payload {L : Prop} [Decidable L] {ql : ℕ} {R : Prop}
    [Decidable R] {qr : ℕ} {d : ℕ → ℝ} {x : ℝ}
    (h : axisMin L ql R qr d = some x) :
    (L ∧ R ∧ x = min (d ql) (d qr)) ∨ (L ∧ x = d ql) ∨ (R ∧ x = d qr) := by
  unfold axisMin at h
  split_ifs at h with h1 h2 h3
  · exact Or.inl ⟨h1, h2, (Option.some.inj h).symm⟩
  · exact Or.inr (Or.inl ⟨h1, (Option.some.inj h).symm⟩)
  · exact Or.inr (Or.inr ⟨h3, (Option.some.inj h).symm⟩)

lemma eikCandidate_cases {a b : Option ℝ} {c : ℝ}
    (h : eikCandidate a b = some c) :
    (∃ x, a = some x ∧ b = none ∧ c = x + 1) ∨
      (∃ x, a = none ∧ b = some x ∧ c = x + 1) ∨
      (∃ x y, a = some x ∧ b = some y ∧
        (c = min x y + 1 ∨
          c = (min x y + max x y
            + Real.sqrt (2 - (max x y - min x y) ^ 2)) / 2)) := by
  cases a with
  | none =>
    cases b with
    | none => exact absurd h (by simp [eikCandidate])
    | some y =>
      simp only [eikCandidate, Option.some.injEq] at h
      exact Or.inr (Or.inl ⟨y, rfl, rfl, h.symm⟩)
  | some x =>
    cases b with
    | none =>
      simp only [eikCandidate, Option.some.injEq] at h
      exact Or.inl ⟨x, rfl, rfl, h.symm⟩
    | some y =>
      refine Or.inr (Or.inr ⟨x, y, rfl, rfl, ?_⟩)
      simp only [eikCandidate] at h
      split_ifs at h with hle
      · exact Or.inl (Option.some.inj h).symm
      · exact Or.inr (Option.some.inj h).symm

lemma elim_update_pres (N s : ℕ) (P : ℝ → Prop) (d : ℕ → ℝ)
    (hd : ∀ q, q < N → P (d q)) (C : Option ℝ)
    (hc : ∀ c, C = some c → P (min (d s) c)) :
    ∀ q, q < N →
      P ((C.elim d fun c => Function.update d s (min (d s) c)) q) := by
  intro q hq
  cases C with
  | none => exact hd q hq
  | some c =>
    simp only [Option.elim]
    by_cases hqs : q = s
    · subst hqs
      rw [Function.update_same]
      exact hc c rfl
    · rw [Function.update_noteq hqs]
      exact hd q hq

/-- One Gauss–Seidel node relaxation preserves any pointwise predicate
that is closed under `min` and under the two Eikonal candidate forms. -/
lemma sweepStep_pres_pointwise (nx ny : ℕ) (P : ℝ → Prop)
    (hmin : ∀ x y, P x → P y → P (min x y))
    (h1 : ∀ x y, P x → P y → P (min x (y + 1)))
    (h2 : ∀ x y z, P x → P y → P z →
      P (min x ((min y z + max y z
        + Real.sqrt (2 - (max y z - min y z) ^ 2)) / 2)))
    (ij : ℕ × ℕ) (hij : ij.1 < nx ∧ ij.2 < ny) (d : ℕ → ℝ)
    (hd : ∀ q, q < nx * ny → P (d q)) :
    ∀ q, q < nx * ny → P (sweepStep nx ny d ij q) := by
  have hsN : ij.2 * nx + ij.1 < nx * ny := idx_lt hij.1 hij.2
  have hPsub : ∀ k, P (d (ij.2 * nx + ij.1 - k)) := fun k =>
    hd _ (lt_of_le_of_lt (Nat.sub_le _ _) hsN)
  have hPa : ∀ x, axisMin (0 < ij.1) (ij.2 * nx + ij.1 - 1) (ij.1 + 1 < nx)
      (ij.2 * nx + ij.1 + 1) d = some x → P x := by
    intro x hx
    have hplus : (ij.1 + 1 < nx) → P (d (ij.2 * nx + ij.1 + 1)) := by
      intro hR
      have he : ij.2 * nx + ij.1 + 1 = ij.2 * nx + (ij.1 + 1) := by ring
      exact hd _ (by rw [he]; exact idx_lt hR hij.2)
    rcases axisMin_payload hx with ⟨-, hR, rfl⟩ | ⟨-, rfl⟩ | ⟨hR, rfl⟩
    · exact hmin _ _ (hPsub 1) (hplus hR)
    · exact hPsub 1
    · exact hplus hR
  have hPb : ∀ x, axisMin (0 < ij.2) (ij.2 * nx + ij.1 - nx) (ij.2 + 1 < ny)
      (ij.2 * nx + ij.1 + nx) d = some x → P x := by
    intro x hx
    have hplus : (ij.2 + 1 < ny) → P (d (ij.2 * nx + ij.1 + nx)) := by
      intro hR
      have he : ij.2 * nx + ij.1 + nx = (ij.2 + 1) * nx + ij.1 := by ring
      exact hd _ (by rw [he]; exact idx_lt hij.1 hR)
    rcases axisMin_payload hx with ⟨-, hR, rfl⟩ | ⟨-, rfl⟩ | ⟨hR, rfl⟩
    · exact hmin _ _ (hPsub nx) (hplus hR)
    · exact hPsub nx
    · exact hplus hR
  intro q hq
  simp only [sweepStep]
  refine elim_update_pres (nx * ny) (ij.2 * nx + ij.1) P d hd _ ?_ q hq
  intro c hc
  have hPs : P (d (ij.2 * nx + ij.1)) := hd _ hsN
  rcases eikCandidate_cases hc with ⟨x, ha, -, rfl⟩ | ⟨x, -, hb, rfl⟩
    | ⟨x, y, ha, hb, hform⟩
  · exact h1 _ _ hPs (hPa x ha)
  · exact h1 _ _ hPs (hPb x hb)
  · have hPx := hPa x ha
    have hPy := hPb y hb
    rcases hform with rfl | rfl
    · exact h1 _ _ hPs (hmin _ _ hPx hPy)
    · exact h2 _ _ _ hPs hPx hPy

/-- The modelled sweep keeps a buffer that is sentinel everywhere on the
grid at the sentinel everywhere. -/
lemma fast_sweep_pres_FMAX (dim : ℕ × ℕ) (d : ℕ → ℝ)
    (hd : ∀ q, q < dim.1 * dim.2 → d q = FMAX) :
    ∀ q, q < dim.1 * dim.2 → fast_sweep_dist d dim q = FMAX := by
  unfold fast_sweep_dist
  refine foldl_pres (fun d => ∀ q, q < dim.1 * dim.2 → d q = FMAX)
    (sweepStep dim.1 dim.2) (sweepList dim.1 dim.2) ?_ d hd
  intro ij hij d hd
  refine sweepStep_pres_pointwise dim.1 dim.2 (fun x => x = FMAX) ?_ ?_ ?_
    ij (sweepList_mem hij) d hd
  · intro x y hx hy
    rw [hx, hy, min_self]
  · intro x y hx hy
    rw [hx, hy]
    exact min_eq_left (by linarith)
  · intro x y z hx hy hz
    rw [hx, hy, hz, min_self, max_self]
    refine min_eq_left ?_
    have := Real.sqrt_nonneg (2 - (FMAX - FMAX) ^ 2)
    linarith

/-- The modelled sweep preserves non-negativity on the grid. -/
lemma fast_sweep_pres_nonneg (dim : ℕ × ℕ) (d : ℕ → ℝ)
    (hd : ∀ q, q < dim.1 * dim.2 → 0 ≤ d q) :
    ∀ q, q < dim.1 * dim.2 → 0 ≤ fast_sweep_dist d dim q := by
  unfold fast_sweep_dist
  refine foldl_pres (fun d => ∀ q, q < dim.1 * dim.2 → 0 ≤ d q)
    (sweepStep dim.1 dim.2) (sweepList dim.1 dim.2) ?_ d hd
  intro ij hij d hd
  refine sweepStep_pres_pointwise dim.1 dim.2 (fun x => 0 ≤ x) ?_ ?_ ?_
    ij (sweepList_mem hij) d hd
  · intro x y hx hy
    exact le_min hx hy
  · intro x y hx hy
    exact le_min hx (by linarith)
  · intro x y z hx hy hz
    refine le_min hx ?_
    have h3 := Real.sqrt_nonneg (2 - (max y z - min y z) ^ 2)
    have h4 : 0 ≤ min y z := le_min hy hz
    have h5 : y ≤ max y z := le_max_left y z
    linarith

/-! ### The sign-and-scale pass on uniform-sign inputs -/

lemma init_dist_nonneg (d u : ℕ → ℝ) (nx ny : ℕ) :
    ∀ q, q < nx * ny → 0 ≤ init_dist d u (nx, ny) q := by
  intro q hq
  have hfill : sentinelFill d (nx * ny) q = FMAX := if_pos hq
  rw [init_dist_eq_foldl, hfill]
  exact le_foldl_min _ _ 0 FMAX_pos.le fun x hx =>
    (contribs_bounds u nx ny q x hx).1

lemma signed_distance_allpos (d u : ℕ → ℝ) (nx ny : ℕ) (h : ℝ) (q : ℕ)
    (hq : q < nx * ny) (hu : ∀ i, i < nx * ny → 0 < u i) :
    signed_distance d u (nx, ny) h q = FMAX * h := by
  have hinit := init_dist_sentinel d u nx ny
    (initEvents_nil_of_uniform u nx ny (Or.inl hu))
  have hsweep := fast_sweep_pres_FMAX (nx, ny) _ hinit
  simp only [signed_distance]
  rw [if_pos hq, if_neg (not_lt.mpr (hu q hq).le), hsweep q hq]

lemma signed_distance_allneg (d u : ℕ → ℝ) (nx ny : ℕ) (h : ℝ) (q : ℕ)
    (hq : q < nx * ny) (hu : ∀ i, i < nx * ny → u i < 0) :
    signed_distance d u (nx, ny) h q = -FMAX * h := by
  have hinit := init_dist_sentinel d u nx ny
    (initEvents_nil_of_uniform u nx ny (Or.inr hu))
  have hsweep := fast_sweep_pres_FMAX (nx, ny) _ hinit
  simp only [signed_distance]
  rw [if_pos hq, if_pos (hu q hq), hsweep q hq]

/-- Claim C1, amended: on an all-strictly-positive input the final entry
at every grid node is the sentinel scaled by the grid spacing,
`FMAX * h` (equal to `+FMAX` only for `h = 1`); on an all-strictly
negative input it is `-FMAX * h`.  The claim as frozen asserts `±FMAX`
itself, which fails for `h ≠ 1` (see the counterexample). -/
theorem claim_C1 (d u : ℕ → ℝ) (nx ny : ℕ) (h : ℝ) (q : ℕ)
    (hq : q < nx * ny) :
    ((∀ i, i < nx * ny → 0 < u i) →
        signed_distance d u (nx, ny) h q = FMAX * h) ∧
      ((∀ i, i < nx * ny → u i < 0) →
        signed_distance d u (nx, ny) h q = -FMAX * h) :=
  ⟨fun hu => signed_distance_allpos d u nx ny h q hq hu,
   fun hu => signed_distance_allneg d u nx ny h q hq hu⟩

/-- Witness for (amended) claim C1: a 1×1 grid, all-positive input,
`h = 1`. -/
theorem claim_C1_witness :
    signed_distance (fun _ => 0) (fun _ => 1) (1, 1) 1 0 = FMAX * 1 :=
  (claim_C1 (fun _ => 0) (fun _ => 1) 1 1 1 0 (by norm_num)).1
    (fun _ _ => one_pos)

/-- Counterexample to claim C1 as frozen: on a 2×2 grid with the
all-positive input `u ≡ 1` and grid spacing `h = 1/2` (for which `f64`
multiplication by `h` is exact, so this transfers verbatim to the
floating-point program), the resulting entry is `FMAX * (1/2)`, not the
sentinel `FMAX` itself. -/
theorem claim_C1_counterexample :
    signed_distance (fun _ => 0) (fun _ => 1) (2, 2) (1 / 2) 0 ≠ FMAX := by
  rw [signed_distance_allpos (fun _ => 0) (fun _ => 1) 2 2 (1 / 2) 0
    (by norm_num) (fun _ _ => one_pos)]
  have := FMAX_pos
  intro hcontra
  nlinarith

/-- Claim C2: for `h > 0`, after `signed_distance` every grid entry has
the sign of the corresponding input value (`≤ 0` where `u < 0`, `≥ 0`
where `u ≥ 0`), and equals the unsigned swept distance multiplied by `h`
and negated exactly when `u` is negative there. -/
theorem claim_C2 (d u : ℕ → ℝ) (nx ny : ℕ) (h : ℝ) (q : ℕ) (hh : 0 < h)
    (hq : q < nx * ny) :
    (u q < 0 → signed_distance d u (nx, ny) h q ≤ 0) ∧
      (0 ≤ u q → 0 ≤ signed_distance d u (nx, ny) h q) ∧
      signed_distance d u (nx, ny) h q =
        (if u q < 0
          then -(fast_sweep_dist (init_dist d u (nx, ny)) (nx, ny) q) * h
          else fast_sweep_dist (init_dist d u (nx, ny)) (nx, ny) q * h) := by
  have hnn : 0 ≤ fast_sweep_dist (init_dist d u (nx, ny)) (nx, ny) q :=
    fast_sweep_pres_nonneg (nx, ny) _ (init_dist_nonneg d u nx ny) q hq
  have heq : signed_distance d u (nx, ny) h q =
      (if u q < 0
        then -(fast_sweep_dist (init_dist d u (nx, ny)) (nx, ny) q) * h
        else fast_sweep_dist (init_dist d u (nx, ny)) (nx, ny) q * h) := by
    simp only [signed_distance]
    rw [if_pos hq]
  refine ⟨?_, ?_, heq⟩
  · intro hneg
    rw [heq, if_pos hneg]
    nlinarith
  · intro hpos
    rw [heq, if_neg (not_lt.mpr hpos)]
    exact mul_nonneg hnn hh.le

/-- Witness for claim C2 on a 1×1 grid with positive input. -/
theorem claim_C2_witness :
    0 ≤ signed_distance (fun _ => 0) (fun _ => 1) (1, 1) 1 0 :=
  (claim_C2 (fun _ => 0) (fun _ => 1) 1 1 1 0 one_pos (by norm_num)).2.1
    (by norm_num)

/-! ### Concrete values of `triangle_dist` on the enumerated degenerate
inputs (the `simple_triangles` test of src/level_set.rs) -/

/-- Claim C8: `triangle_dist` returns the specified closed-form values
on the enumerated degenerate inputs. -/
theorem claim_C8 :
    triangle_dist ![(0 : ℝ), 0, 0] = some ![0, 0, 0] ∧
      triangle_dist ![(-1 : ℝ), 0, 0] = some ![Real.sqrt 0.5, 0, 0] ∧
      triangle_dist ![(0 : ℝ), 1, 0] = some ![0, 1, 0] ∧
      triangle_dist ![(0 : ℝ), -1, -1] = some ![0, 1, 1] ∧
      triangle_dist ![(1 : ℝ), 1, 0] = some ![1, Real.sqrt 2, 0] := by
  refine ⟨?_, ?_, ?_, ?_, ?_⟩
  · norm_num [triangle_dist, triCase]
  · norm_num [triangle_dist, triCase]
  · norm_num [triangle_dist, triCase]
  · norm_num [triangle_dist, triCase]
  · norm_num [triangle_dist, triCase]

/-! ### All slice accesses of the loops are within the asserted lengths -/

lemma initAccess_lt {nx ny q : ℕ} (h : q ∈ initAccess nx ny) :
    q < nx * ny := by
  obtain ⟨ji, hji, hq⟩ := List.mem_flatMap.mp h
  obtain ⟨hj1, hj2, hi1, hi2⟩ := cellList_mem hji
  have hs : ji.1 * nx + ji.2 < nx * ny := idx_lt hi2 hj2
  simp only [List.mem_cons, List.mem_singleton, List.not_mem_nil,
    or_false] at hq
  rcases hq with rfl | rfl | rfl | rfl
  · exact lt_of_le_of_lt ((Nat.sub_le _ _).trans (Nat.sub_le _ _)) hs
  · exact lt_of_le_of_lt (Nat.sub_le _ _) hs
  · exact lt_of_le_of_lt (Nat.sub_le _ _) hs
  · exact hs

lemma idx3_lt {nx ny nz i j k : ℕ} (hi : i < nx) (hj : j < ny)
    (hk : k < nz) : i * ny * nz + j * nz + k < nx * ny * nz := by
  have h1 : j * nz + k < ny * nz := by
    calc j * nz + k < j * nz + nz := by omega
      _ = (j + 1) * nz := by ring
      _ ≤ ny * nz := Nat.mul_le_mul_right nz hj
  calc i * ny * nz + j * nz + k = i * (ny * nz) + (j * nz + k) := by ring
    _ < i * (ny * nz) + ny * nz := by omega
    _ = (i + 1) * (ny * nz) := by ring
    _ ≤ nx * (ny * nz) := Nat.mul_le_mul_right _ hi
    _ = nx * ny * nz := by ring

lemma cellList3_mem {nx ny nz : ℕ} {ijk : ℕ × ℕ × ℕ}
    (h : ijk ∈ cellList3 nx ny nz) :
    1 ≤ ijk.1 ∧ ijk.1 < nx ∧ 1 ≤ ijk.2.1 ∧ ijk.2.1 < ny ∧
      1 ≤ ijk.2.2 ∧ ijk.2.2 < nz := by
  obtain ⟨i, hi, h2⟩ := List.mem_flatMap.mp h
  obtain ⟨j, hj, h3⟩ := List.mem_flatMap.mp h2
  obtain ⟨k, hk, rfl⟩ := List.mem_map.mp h3
  rw [List.mem_range'_1] at hi hj hk
  dsimp only
  exact ⟨hi.1, by omega, hj.1, by omega, hk.1, by omega⟩

lemma initAccess3_lt {nx ny nz q : ℕ} (h : q ∈ initAccess3 nx ny nz) :
    q < nx * ny * nz := by
  obtain ⟨ijk, hijk, hq⟩ := List.mem_flatMap.mp h
  obtain ⟨h1, h2, h3, h4, h5, h6⟩ := cellList3_mem hijk
  have hs : ijk.1 * ny * nz + ijk.2.1 * nz + ijk.2.2 < nx * ny * nz :=
    idx3_lt h2 h4 h6
  obtain ⟨idx, -, hq⟩ := List.mem_flatMap.mp hq
  simp only [List.mem_cons, List.mem_singleton, List.not_mem_nil,
    or_false] at hq
  rcases hq with rfl | rfl | rfl | rfl <;>
    exact lt_of_le_of_lt (Nat.sub_le _ _) hs

lemma sweepAccess_lt {nx ny q : ℕ} (h : q ∈ sweepAccess nx ny) :
    q < nx * ny := by
  obtain ⟨ij, hij, hq⟩ := List.mem_flatMap.mp h
  obtain ⟨hi, hj⟩ := sweepList_mem hij
  have hs : ij.2 * nx + ij.1 < nx * ny := idx_lt hi hj
  have hsplit : ∀ (c : Prop) [Decidable c] (x : ℕ),
      q ∈ (if c then [x] else ([] : List ℕ)) → c ∧ q = x := by
    intro c _ x hx
    split_ifs at hx with hc
    · exact ⟨hc, List.mem_singleton.mp hx⟩
    · cases hx
  simp only [List.mem_append] at hq
  rcases hq with (((hq | hq) | hq) | hq) | hq
  · rw [List.mem_singleton.mp hq]
    exact hs
  · obtain ⟨-, rfl⟩ := hsplit _ _ hq
    exact lt_of_le_of_lt (Nat.sub_le _ _) hs
  · obtain ⟨hc, rfl⟩ := hsplit _ _ hq
    have he : ij.2 * nx + ij.1 + 1 = ij.2 * nx + (ij.1 + 1) := by ring
    rw [he]
    exact idx_lt hc hj
  · obtain ⟨-, rfl⟩ := hsplit _ _ hq
    exact lt_of_le_of_lt (Nat.sub_le _ _) hs
  · obtain ⟨hc, rfl⟩ := hsplit _ _ hq
    have he : ij.2 * nx + ij.1 + nx = (ij.2 + 1) * nx + ij.1 := by ring
    rw [he]
    exact idx_lt hi hc

/-- Claim C9: `signed_distance`, `init_dist` and `init_dist_3d` fail
fast (modelled as `none`) if and only if the length of `u` or `d`
differs from the product of the declared dimension tuple; for matching
lengths no error arises for any input values (in particular every slice
access of the loops is in bounds). -/
theorem claim_C9 (d u : List ℝ) :
    (∀ dim : ℕ × ℕ,
      (init_dist_run d u dim = none ↔
        ¬(dim.1 * dim.2 = u.length ∧ dim.1 * dim.2 = d.length)) ∧
      ∀ h : ℝ,
        signed_distance_run d u dim h = none ↔
          ¬(dim.1 * dim.2 = u.length ∧ dim.1 * dim.2 = d.length)) ∧
      ∀ dim : ℕ × ℕ × ℕ,
        init_dist_3d_run d u dim = none ↔
          ¬(dim.1 * dim.2.1 * dim.2.2 = u.length ∧
            dim.1 * dim.2.1 * dim.2.2 = d.length) := by
  constructor
  · intro dim
    constructor
    · by_cases hlen : dim.1 * dim.2 = u.length ∧ dim.1 * dim.2 = d.length
      · have hall : (initAccess dim.1 dim.2).all
            (fun q => decide (q < u.length)) = true :=
          List.all_eq_true.mpr fun q hq => decide_eq_true
            (hlen.1 ▸ initAccess_lt hq)
        unfold init_dist_run
        rw [if_pos hlen, if_pos hall]
        exact iff_of_false (by simp) (not_not_intro hlen)
      · unfold init_dist_run
        rw [if_neg hlen]
        exact iff_of_true rfl hlen
    · intro h
      by_cases hlen : dim.1 * dim.2 = u.length ∧ dim.1 * dim.2 = d.length
      · have hall1 : (initAccess dim.1 dim.2).all
            (fun q => decide (q < u.length)) = true :=
          List.all_eq_true.mpr fun q hq => decide_eq_true
            (hlen.1 ▸ initAccess_lt hq)
        have hall2 : (sweepAccess dim.1 dim.2).all
            (fun q => decide (q < d.length)) = true :=
          List.all_eq_true.mpr fun q hq => decide_eq_true
            (hlen.2 ▸ sweepAccess_lt hq)
        unfold signed_distance_run
        rw [if_pos hlen, if_pos (by rw [hall1, hall2]; rfl)]
        exact iff_of_false (by simp) (not_not_intro hlen)
      · unfold signed_distance_run
        rw [if_neg hlen]
        exact iff_of_true rfl hlen
  · intro dim
    by_cases hlen : dim.1 * dim.2.1 * dim.2.2 = u.length ∧
        dim.1 * dim.2.1 * dim.2.2 = d.length
    · have hall : (initAccess3 dim.1 dim.2.1 dim.2.2).all
          (fun q => decide (q < u.length)) = true :=
        List.all_eq_true.mpr fun q hq => decide_eq_true
          (hlen.1 ▸ initAccess3_lt hq)
      unfold init_dist_3d_run
      rw [if_pos hlen, if_pos hall]
      exact iff_of_false (by simp) (not_not_intro hlen)
    · unfold init_dist_3d_run
      rw [if_neg hlen]
      exact iff_of_true rfl hlen

/-! ### The result does not depend on the prior contents of `d` -/

lemma elim_update_agree (N s : ℕ) (d1 d2 : ℕ → ℝ)
    (h : ∀ q, q < N → d1 q = d2 q) (C : Option ℝ) :
    ∀ q, q < N →
      (C.elim d1 fun c => Function.update d1 s (min (d1 s) c)) q
        = (C.elim d2 fun c => Function.update d2 s (min (d2 s) c)) q := by
  intro q hq
  cases C with
  | none => exact h q hq
  | some c =>
    simp only [Option.elim]
    by_cases hqs : q = s
    · subst hqs
      rw [Function.update_same, Function.update_same, h _ hq]
    · rw [Function.update_noteq hqs, Function.update_noteq hqs]
      exact h q hq

lemma sweepStep_agree (nx ny : ℕ) (ij : ℕ × ℕ) (hij : ij.1 < nx ∧ ij.2 < ny)
    (d1 d2 : ℕ → ℝ) (h : ∀ q, q < nx * ny → d1 q = d2 q) :
    ∀ q, q < nx * ny → sweepStep nx ny d1 ij q = sweepStep nx ny d2 ij q := by
  have hs : ij.2 * nx + ij.1 < nx * ny := idx_lt hij.1 hij.2
  have hsub : ∀ k, d1 (ij.2 * nx + ij.1 - k) = d2 (ij.2 * nx + ij.1 - k) :=
    fun k => h _ (lt_of_le_of_lt (Nat.sub_le _ _) hs)
  have hplus1 : ij.1 + 1 < nx →
      d1 (ij.2 * nx + ij.1 + 1) = d2 (ij.2 * nx + ij.1 + 1) := by
    intro hR
    have he : ij.2 * nx + ij.1 + 1 = ij.2 * nx + (ij.1 + 1) := by ring
    exact h _ (by rw [he]; exact idx_lt hR hij.2)
  have hplusnx : ij.2 + 1 < ny →
      d1 (ij.2 * nx + ij.1 + nx) = d2 (ij.2 * nx + ij.1 + nx) := by
    intro hR
    have he : ij.2 * nx + ij.1 + nx = (ij.2 + 1) * nx + ij.1 := by ring
    exact h _ (by rw [he]; exact idx_lt hij.1 hR)
  have ha : axisMin (0 < ij.1) (ij.2 * nx + ij.1 - 1) (ij.1 + 1 < nx)
      (ij.2 * nx + ij.1 + 1) d1
        = axisMin (0 < ij.1) (ij.2 * nx + ij.1 - 1) (ij.1 + 1 < nx)
          (ij.2 * nx + ij.1 + 1) d2 := by
    unfold axisMin
    split_ifs with h1 h2 h3
    · rw [hsub 1, hplus1 h2]
    · rw [hsub 1]
    · rw [hplus1 h3]
    · rfl
  have hb : axisMin (0 < ij.2) (ij.2 * nx + ij.1 - nx) (ij.2 + 1 < ny)
      (ij.2 * nx + ij.1 + nx) d1
        = axisMin (0 < ij.2) (ij.2 * nx + ij.1 - nx) (ij.2 + 1 < ny)
          (ij.2 * nx + ij.1 + nx) d2 := by
    unfold axisMin
    split_ifs with h1 h2 h3
    · rw [hsub nx, hplusnx h2]
    · rw [hsub nx]
    · rw [hplusnx h3]
    · rfl
  intro q hq
  simp only [sweepStep]
  rw [ha, hb]
  exact elim_update_agree (nx * ny) (ij.2 * nx + ij.1) d1 d2 h _ q hq

lemma foldl_agree {α : Type _} (N : ℕ) (f : (ℕ → ℝ) → α → (ℕ → ℝ)) :
    ∀ l : List α,
      (∀ x ∈ l, ∀ d1 d2, (∀ q, q < N → d1 q = d2 q) →
        ∀ q, q < N → f d1 x q = f d2 x q) →
      ∀ d1 d2, (∀ q, q < N → d1 q = d2 q) →
        ∀ q, q < N → l.foldl f d1 q = l.foldl f d2 q
  | [], _, _, _, h, q, hq => h q hq
  | x :: tl, hf, d1, d2, h, q, hq => by
    simp only [List.foldl_cons]
    exact foldl_agree N f tl (fun y hy => hf y (List.mem_cons_of_mem x hy))
      (f d1 x) (f d2 x) (hf x (List.mem_cons_self x tl) d1 d2 h) q hq

lemma fast_sweep_agree (dim : ℕ × ℕ) (d1 d2 : ℕ → ℝ)
    (h : ∀ q, q < dim.1 * dim.2 → d1 q = d2 q) :
    ∀ q, q < dim.1 * dim.2 →
      fast_sweep_dist d1 dim q = fast_sweep_dist d2 dim q := by
  unfold fast_sweep_dist
  exact foldl_agree (dim.1 * dim.2) (sweepStep dim.1 dim.2)
    (sweepList dim.1 dim.2)
    (fun ij hij => sweepStep_agree dim.1 dim.2 ij (sweepList_mem hij))
    d1 d2 h

lemma init_dist_agree (d1 d2 u : ℕ → ℝ) (nx ny : ℕ) :
    ∀ q, q < nx * ny → init_dist d1 u (nx, ny) q = init_dist d2 u (nx, ny) q := by
  intro q hq
  rw [init_dist_eq_foldl, init_dist_eq_foldl]
  congr 1
  unfold sentinelFill
  rw [if_pos hq, if_pos hq]

lemma init_dist_3d_agree (d1 d2 u : ℕ → ℝ) (nx ny nz : ℕ) :
    ∀ q, q < nx * ny * nz →
      init_dist_3d d1 u (nx, ny, nz) q = init_dist_3d d2 u (nx, ny, nz) q := by
  intro q hq
  unfold init_dist_3d
  rw [foldl_updateMin_apply, foldl_updateMin_apply]
  congr 1
  unfold sentinelFill
  rw [if_pos hq, if_pos hq]

lemma signed_distance_agree (d1 d2 u : ℕ → ℝ) (nx ny : ℕ) (h : ℝ) :
    ∀ q, q < nx * ny →
      signed_distance d1 u (nx, ny) h q = signed_distance d2 u (nx, ny) h q := by
  intro q hq
  have hfs := fast_sweep_agree (nx, ny) _ _ (init_dist_agree d1 d2 u nx ny) q hq
  simp only [signed_distance]
  rw [if_pos hq, if_pos hq, hfs]

/-- Claim C10: the grid contents written by `init_dist`, `init_dist_3d`
and `signed_distance` are a function of `u`, the dimensions (and `h`)
only: two runs differing arbitrarily in the prior contents of `d`
produce identical entries at every grid index (every entry is
overwritten with the sentinel before any entry is read). -/
theorem claim_C10 (d d' u : ℕ → ℝ) :
    (∀ nx ny q, q < nx * ny →
      init_dist d u (nx, ny) q = init_dist d' u (nx, ny) q ∧
        ∀ h, signed_distance d u (nx, ny) h q
          = signed_distance d' u (nx, ny) h q) ∧
      ∀ nx ny nz q, q < nx * ny * nz →
        init_dist_3d d u (nx, ny, nz) q = init_dist_3d d' u (nx, ny, nz) q :=
  ⟨fun nx ny q hq => ⟨init_dist_agree d d' u nx ny q hq,
      fun h => signed_distance_agree d d' u nx ny h q hq⟩,
   fun nx ny nz q hq => init_dist_3d_agree d d' u nx ny nz q hq⟩

/-- Witness for claim C10: two different initial buffers, same `u`, on a
1×1 grid. -/
theorem claim_C10_witness :
    init_dist (fun _ => 5) (fun _ => 1) (1, 1) 0
      = init_dist (fun _ => 7) (fun _ => 1) (1, 1) 0 :=
  ((claim_C10 (fun _ => 5) (fun _ => 7) (fun _ => 1)).1 1 1 0 (by norm_num)).1

end FastSweeping
